import Mathlib

/-!
Verification of the presto-poetrykiosk core against its specification.

Strings from the Python source are modelled as `List Char`.  The text
engine (`framework/text.py`), the paginator and state machine
(`framework/kiosk.py`) and the playlist builder (`impl/kiosk.py`) are
embedded as executable Lean definitions, translated clause by clause
from the source.  The display's `measure_text` capability (composed with
the `.upper()` call made inside `wrap_words`) is passed in as an
arbitrary function `measure : List Char → Int`, exactly as the claims
quantify over measurement functions.
-/

namespace PoetryKiosk

/-- Character class used by Python `str.split()` with no arguments:
the `str.isspace` characters. -/
def pyIsSpace (c : Char) : Bool :=
  c == ' ' || c == '\t' || c == '\n' || c == '\x0b' || c == '\x0c' || c == '\r' ||
  c == '\x1c' || c == '\x1d' || c == '\x1e' || c == '\x1f' ||
  c == '\x85' || c == ' ' || c == ' ' ||
  (0x2000 ≤ c.toNat && c.toNat ≤ 0x200a) ||
  c == ' ' || c == ' ' || c == ' ' || c == ' ' || c == '　'

/-- Character class used by Python `str.splitlines()`: the line-break
characters (a strict subset of the whitespace set). -/
def pyIsLineBreak (c : Char) : Bool :=
  c == '\n' || c == '\r' || c == '\x0b' || c == '\x0c' ||
  c == '\x1c' || c == '\x1d' || c == '\x1e' ||
  c == '\x85' || c == ' ' || c == ' '

/-- Worker for `splitlines`.  `acc` is the current segment, reversed.
Mirrors CPython `str.splitlines()`: a `"\r\n"` pair counts as a single
break (`swallowLf` is set right after a `'\r'` so that an immediately
following `'\n'` is consumed silently), and the final segment is
emitted only when non-empty (a trailing line break does not create a
final empty segment). -/
def splitlinesGo (swallowLf : Bool) (acc : List Char) : List Char → List (List Char)
  | [] => if acc = [] then [] else [acc.reverse]
  | c :: cs =>
    if swallowLf && c == '\n' then splitlinesGo false acc cs
    else if c == '\r' then acc.reverse :: splitlinesGo true [] cs
    else if pyIsLineBreak c then acc.reverse :: splitlinesGo false [] cs
    else splitlinesGo false (c :: acc) cs

/-- Python `text.splitlines()`. -/
def splitlines (text : List Char) : List (List Char) := splitlinesGo false [] text

/-- The `trailing_newlines` count in `wrap_words` (`framework/text.py`
lines 69–73): number of `'\n'` characters at the end of the text. -/
def countTrailingNl (text : List Char) : Nat :=
  (text.reverse.takeWhile (fun c => c == '\n')).length

/-- Worker for `pySplit`.  `acc` is the current word, reversed. -/
def pySplitGo (acc : List Char) : List Char → List (List Char)
  | [] => if acc = [] then [] else [acc.reverse]
  | c :: cs =>
    if pyIsSpace c then
      if acc = [] then pySplitGo [] cs else acc.reverse :: pySplitGo [] cs
    else pySplitGo (c :: acc) cs

/-- Python `raw_line.split()` (no separator argument): split on runs of
whitespace, dropping leading/trailing whitespace and empty words. -/
def pySplit (l : List Char) : List (List Char) := pySplitGo [] l

/-- Join a word list with single spaces; the shape of the `current`
accumulator built by `wrap_words` via `f"{current} {w}"`. -/
def joinWords : List (List Char) → List Char
  | [] => []
  | [w] => w
  | w :: ws => w ++ ' ' :: joinWords ws

/-- Accumulator state of the word loop in `wrap_words`: the flushed
output lines so far and the `current` line being assembled. -/
structure WrapSt where
  out : List (List Char)
  current : List Char
deriving DecidableEq

/-- The character-level wrapping loop of `wrap_words`
(`framework/text.py` lines 96–104): `chunk` accumulates characters,
flushing whenever adding the next character would exceed `maxPx`.
Returns the flushed lines and the final chunk. -/
def charWrapGo (measure : List Char → Int) (maxPx : Int) (outAcc : List (List Char))
    (chunk : List Char) : List Char → List (List Char) × List Char
  | [] => (outAcc, chunk)
  | c :: rest =>
    let cand2 := if chunk = [] then [c] else chunk ++ [c]
    if measure cand2 ≤ maxPx then charWrapGo measure maxPx outAcc cand2 rest
    else charWrapGo measure maxPx (if chunk = [] then outAcc else outAcc ++ [chunk]) [c] rest

/-- One iteration of the word loop of `wrap_words` (`framework/text.py`
lines 79–106), processing word `w` against the running state. -/
def procWord (measure : List Char → Int) (maxPx : Int) (st : WrapSt) (w : List Char) :
    WrapSt :=
  let candidate := if st.current = [] then w else st.current ++ ' ' :: w
  if measure candidate ≤ maxPx then ⟨st.out, candidate⟩
  else
    let out1 := if st.current = [] then st.out else st.out ++ [st.current]
    if measure w ≤ maxPx then ⟨out1, w⟩
    else
      let p := charWrapGo measure maxPx [] [] w
      ⟨out1 ++ p.1, p.2⟩

/-- The per-raw-line body of `wrap_words` (`framework/text.py` lines
75–113): split the raw line into words, run the word loop, then flush
the final `current` (or emit one empty line for a blank raw line). -/
def wrapLine (measure : List Char → Int) (maxPx : Int) (raw : List Char) :
    List (List Char) :=
  let ws := pySplit raw
  if ws = [] then [[]]
  else
    let st := ws.foldl (procWord measure maxPx) ⟨[], []⟩
    st.out ++ [st.current]

/-- `wrap_words` from `framework/text.py`.  `measure` stands for
`lambda s: display.measure_text(s.upper(), scale, spacing)`, the closure
built inside the Python function; it is kept abstract because the
display is an external capability.  Empty text yields one empty line;
non-positive usable width yields one empty line; otherwise every
`splitlines` segment is wrapped and the trailing-`'\n'` count appends
that many further empty lines. -/
def wrap_words (measure : List Char → Int) (text : List Char) (width margin : Int) :
    List (List Char) :=
  if text = [] then [[]]
  else if width - 2 * margin ≤ 0 then [[]]
  else
    ((splitlines text).map (wrapLine measure (width - 2 * margin))).flatten
      ++ List.replicate (countTrailingNl text) []

/-- A measurement function used for concrete test inputs: six pixels per
character, the flavour of `measure=len*6` from the specification's
concrete scenario 1. -/
def mLen (s : List Char) : Int := 6 * s.length

example : wrap_words mLen ['H','E','L','L','O',' ','W','O','R','L','D'] 100 10 =
    [['H','E','L','L','O',' ','W','O','R','L','D']] := by decide

example : wrap_words mLen ['a','\n','\n'] 100 10 = [['a'], [], [], []] := by decide

example : wrap_words mLen [] 100 10 = [[]] := by decide

/-! ## Sanitizer and paginator (`framework/text.py`, `framework/kiosk.py`). -/

/-- The `_REPLACEMENTS` table of `framework/text.py`: the plain-ASCII
expansion of a smart typographic character, or `none` when the
character is not in the table. -/
def _REPLACEMENTS (c : Char) : Option (List Char) :=
  if c = '–' then some ['-']
  else if c = '—' then some ['-']
  else if c = '−' then some ['-']
  else if c = '“' then some ['"']
  else if c = '”' then some ['"']
  else if c = '„' then some ['"']
  else if c = '’' then some ['\'']
  else if c = '‘' then some ['\'']
  else if c = '…' then some ['.', '.', '.']
  else if c = ' ' then some [' ']
  else none

/-- `sanitize_for_bitmap8` from `framework/text.py`: apply the
replacement table, pass `'\n'` and printable ASCII 32–126 through, and
map every other character to `'?'`. -/
def sanitize_for_bitmap8 (s : List Char) : List Char :=
  (s.map (fun ch =>
    match _REPLACEMENTS ch with
    | some r => r
    | none => if ch = '\n' ∨ (32 ≤ ch.toNat ∧ ch.toNat ≤ 126) then [ch] else ['?'])).flatten

/-- The numeric fields of `KioskConfig` (`framework/kiosk.py` lines
10–50); every field passes through Python `int(...)`, so all are
modelled as integers.  The optional `seed` and `start_poem_id` fields
play no role in the claims under verification and are omitted. -/
structure KioskConfig where
  dwell_ms : Int
  fade_ms : Int
  margin_px : Int
  line_spacing_px : Int
  title_scale : Int
  body_scale : Int
  backlight_min : Int
  backlight_max : Int
  title_gap_px : Int
deriving DecidableEq

/-- The documented invariant on `KioskConfig` (spec §3): all numeric
fields non-negative and `backlight_min <= backlight_max`. -/
def KioskConfig.invariant (c : KioskConfig) : Prop :=
  0 ≤ c.dwell_ms ∧ 0 ≤ c.fade_ms ∧ 0 ≤ c.margin_px ∧ 0 ≤ c.line_spacing_px ∧
  0 ≤ c.title_scale ∧ 0 ≤ c.body_scale ∧ 0 ≤ c.backlight_min ∧
  0 ≤ c.backlight_max ∧ 0 ≤ c.title_gap_px ∧ c.backlight_min ≤ c.backlight_max

instance (c : KioskConfig) : Decidable c.invariant := by
  unfold KioskConfig.invariant; infer_instance

/-- `line_height_bitmap8` from `framework/kiosk.py` lines 505–506. -/
def line_height_bitmap8 (scale spacing_px : Int) : Int := 8 * scale + spacing_px

/-- The layout dictionary returned by `PoemPaginator.paginate`. -/
structure Layout where
  title_lines : List (List Char)
  pages : List (List (List Char))
deriving DecidableEq

/-- Worker for `chunkList`: `cur` is the current chunk (reversed) and
`room` the number of elements it can still absorb. -/
def chunkGo (k : Nat) (cur : List α) (room : Nat) : List α → List (List α)
  | [] => [cur.reverse]
  | a :: l =>
    match room with
    | 0 => cur.reverse :: chunkGo k [a] (k - 1) l
    | r + 1 => chunkGo k (a :: cur) r l

/-- The chunking loop of `PoemPaginator.paginate` (`framework/kiosk.py`
lines 201–203): `for i in range(0, len(body_lines), lines_per_page)`
appending `body_lines[i : i + lines_per_page]`.  Assumes `k ≥ 1`, which
`max(1, ...)` guarantees at the call site. -/
def chunkList (k : Nat) : List α → List (List α)
  | [] => []
  | a :: l => chunkGo k [a] (k - 1) l

/-- The `lines_per_page` computation of `PoemPaginator.paginate`
(`framework/kiosk.py` lines 191–199).  Python `//` is floor division
(`Int.fdiv`) and raises `ZeroDivisionError` when `body_line_h` is zero,
modelled as `none`. -/
def paginate_lines_per_page (cfg : KioskConfig) (titleLineCount : Nat)
    (display_h : Int) : Option Int :=
  let usable_h := display_h - cfg.margin_px * 2
  let title_h :=
    (titleLineCount : Int) * line_height_bitmap8 cfg.title_scale cfg.line_spacing_px
      + cfg.title_gap_px
  let body_line_h := line_height_bitmap8 cfg.body_scale cfg.line_spacing_px
  if body_line_h = 0 then none
  else
    let body_h_per_page := max 0 (usable_h - title_h)
    some (max 1 (Int.fdiv body_h_per_page body_line_h))

/-- `PoemPaginator.paginate` from `framework/kiosk.py` lines 154–208.
`measureT` and `measureB` stand for the measuring closures at title and
body scale respectively (see `wrap_words`).  `none` models the
uncaught `ZeroDivisionError` raised when `body_line_h` is zero. -/
def paginate (measureT measureB : List Char → Int) (cfg : KioskConfig)
    (title body : List Char) (display_w display_h : Int) : Option Layout :=
  let safe_title := sanitize_for_bitmap8 title
  let safe_body := sanitize_for_bitmap8 body
  let title_lines := wrap_words measureT safe_title display_w cfg.margin_px
  let body_lines := wrap_words measureB safe_body display_w cfg.margin_px
  match paginate_lines_per_page cfg title_lines.length display_h with
  | none => none
  | some lines_per_page =>
    let pages := chunkList lines_per_page.toNat body_lines
    let pages := if pages = [] then [[]] else pages
    some { title_lines := title_lines, pages := pages }

/-- The pages of a paginate result, with `[]` for the error case; used
to state concrete counterexamples. -/
def pagesOf : Option Layout → List (List (List Char))
  | some L => L.pages
  | none => []

/-- A concrete configuration satisfying `KioskConfig.invariant`, used
for concrete inputs. -/
def cfgA : KioskConfig :=
  { dwell_ms := 8000, fade_ms := 600, margin_px := 10, line_spacing_px := 1,
    title_scale := 2, body_scale := 1, backlight_min := 10, backlight_max := 90,
    title_gap_px := 6 }

example : pagesOf (paginate mLen mLen cfgA ['A'] [] 240 240) = [[[]]] := by decide

example : paginate mLen mLen
    { cfgA with body_scale := 0, line_spacing_px := 0 } ['A'] ['B'] 240 240 = none := by
  decide

/-! ## Playlist builder (`impl/kiosk.py`).

`build_playlist` scans the poems directory.  The directory listing and
the existence of photo files are external filesystem facts, so they are
parameters: `entries` is `os.listdir(poems_dir)` and `photoExists pid`
says whether `os.stat(photos_dir + "/" + pid + ".jpg")` succeeds.  In
the source the `os.stat` probe only prints a "missing photo" line — the
`continue` that would skip the id is commented out — so `photoExists`
cannot influence the result. -/

/-- `_is_json` from `impl/kiosk.py`:
`name.endswith(".json") and len(name) > 5`.  The `endswith` test is the
last five characters; for names shorter than five characters
`name.drop (name.length - 5) = name` which can never equal a
five-character suffix, matching Python's `False`. -/
def _is_json (name : List Char) : Bool :=
  decide (name.drop (name.length - 5) = ['.', 'j', 's', 'o', 'n']) &&
    decide (5 < name.length)

/-- `_basename_no_ext` from `impl/kiosk.py`: `name[:-5]`. -/
def _basename_no_ext (name : List Char) : List Char := name.take (name.length - 5)

/-- Lexicographic comparison on code points: the order Python string
comparison (and hence `list.sort()` on strings) uses. -/
def lexLe : List Char → List Char → Bool
  | [], _ => true
  | _ :: _, [] => false
  | a :: s, b :: t => if a < b then true else if b < a then false else lexLe s t

/-- `build_playlist` from `impl/kiosk.py` lines 16–51: keep the
`*.json` entries, strip the extension, and sort.  The result of Python
`list.sort()` is the unique `lexLe`-sorted permutation (the order is
antisymmetric), so any sorting algorithm produces the identical list;
insertion sort is used here.  `photoExists` is accepted but — exactly
as in the source, where the missing-photo branch only logs — never
consulted. -/
def build_playlist (entries : List (List Char)) (photoExists : List Char → Bool) :
    List (List Char) :=
  List.insertionSort (fun a b => lexLe a b = true)
    ((entries.filter _is_json).map _basename_no_ext)

/-! ## Touch edge detection (`framework/kiosk.py` lines 462–470). -/

/-- One call of `PoetryKioskApp._touch_event`: given the previous
`_touch_was_down` and the polled down-state, return
`(fired, new _touch_was_down)` where
`fired = down and not self._touch_was_down`. -/
def touch_event (was down : Bool) : Bool × Bool := (down && !was, down)

def touch_fires_go (was : Bool) : List Bool → List Bool
  | [] => []
  | d :: ds => (touch_event was d).1 :: touch_fires_go (touch_event was d).2 ds

/-- The fire events produced by polling `_touch_event` over a sequence
of down-states, starting from the initial `_touch_was_down = False` set
in `__init__`. -/
def touch_fires (ds : List Bool) : List Bool := touch_fires_go false ds

example : touch_fires [true, true, false, true] = [true, false, false, true] := by decide

/-! ## Backlight fade transition (`framework/kiosk.py` lines 84–116 and
488–511).

The Python source computes with floats.  The model uses exact rationals
(`Rat.divInt` for the division `(now_ms - self._t0) / self.duration_ms`);
at the points the claims speak about — `t ≤ 0`, `t = 1` and `t ≥ 1` with
integer endpoints — IEEE double arithmetic is exact and agrees with the
rational values, because `d/d` rounds to exactly `1.0`, signs survive
rounding, and `a + (b - a) * 1.0` is exact for integers of this size. -/

inductive FadeDir
  | din
  | dout
deriving DecidableEq

/-- `clamp01` from `framework/kiosk.py` lines 488–493. -/
def clamp01 (x : ℚ) : ℚ := if x < 0 then 0 else if 1 < x then 1 else x

/-- `smoothstep` from `framework/kiosk.py` lines 496–498:
`t * t * (3.0 - 2.0 * t)`. -/
def smoothstep (t : ℚ) : ℚ := t * t * (3 - 2 * t)

/-- `lerp` from `framework/kiosk.py` lines 501–502. -/
def lerp (a b t : ℚ) : ℚ := a + (b - a) * t

/-- Python `int(...)` on a float/rational: truncation toward zero. -/
def pyInt (q : ℚ) : Int := if q < 0 then Int.ceil q else Int.floor q

/-- `set_backlight_0_100` from `framework/kiosk.py` lines 509–511,
modelled as the clamped 0–100 integer level handed to the hardware
(the source then scales it by `1/100.0` for `presto.set_backlight`). -/
def set_backlight_0_100 (value : Int) : Int := max 0 (min 100 value)

/-- `BacklightFadeTransition.update` from `framework/kiosk.py` lines
106–116, given the constructor state (`duration_ms`, `min_b`, `max_b`),
the direction and start time recorded by `start`, and the `now_ms`
argument.  Returns the backlight level applied and the finished flag
`t >= 1.0`.  The constructor applies `max(1, int(duration_ms))`, so
callers pass a positive duration. -/
def fade_update (duration_ms min_b max_b : Int) (dir : FadeDir) (t0 now_ms : Int) :
    Int × Bool :=
  let t := clamp01 (Rat.divInt (now_ms - t0) duration_ms)
  let eased := smoothstep t
  let b :=
    match dir with
    | FadeDir.din => lerp (min_b : ℚ) (max_b : ℚ) eased
    | FadeDir.dout => lerp (max_b : ℚ) (min_b : ℚ) eased
  (set_backlight_0_100 (pyInt b), decide (1 ≤ t))

/-! ## Kiosk state machine (`framework/kiosk.py` lines 298–476).

One iteration of the `while True` loop in `PoetryKioskApp.run` is the
step function below.  Effects without machine state (printing, drawing,
backlight writes) are dropped; whether a draw or index access would
raise is still tracked, because an uncaught exception terminates the
loop — `none` is the crashed loop.  The external world supplied per
iteration is an `Env`: the clock value `now`, the polled touch
down-state, and the poem repository (`PoetryLibrary.load_poem`, which
raises on invalid JSON — `none` here). -/

/-- A validated poem record: `load_poem` in `impl/kiosk.py` returns
exactly the two string fields `title` and `body`. -/
structure Poem where
  title : List Char
  body : List Char
deriving DecidableEq

inductive KState
  | load
  | fadeIn
  | display
  | fadeOut
deriving DecidableEq

/-- The mutable state of `PoetryKioskApp` that the loop touches:
`self.playlist`, `self.play_index`, `self._state`, `self._deadline_ms`,
`self._poem`, `self._layout`, `self._page_i`, `self._touch_was_down`,
and the transition's recorded direction and start time. -/
structure MState where
  playlist : List (List Char)
  play_index : Nat
  kstate : KState
  deadline_ms : Int
  poem : Option Poem
  layout : Option Layout
  page_i : Nat
  touch_was_down : Bool
  trans_dir : FadeDir
  trans_t0 : Int
deriving DecidableEq

/-- The external inputs consumed by one loop iteration. -/
structure Env where
  now : Int
  touch_down : Bool
  load : List Char → Option Poem

/-- `PoetryKioskApp._next_poem` (`framework/kiosk.py` lines 457–460):
advance and wrap to 0 at the end of the playlist. -/
def next_poem (s : MState) : MState :=
  let p := s.play_index + 1
  { s with play_index := if s.playlist.length ≤ p then 0 else p }

/-- Whether `PoetryKioskApp._render_current_page` returns without
raising: it returns early unless both `_layout` and `_poem` are set,
and otherwise indexes `pages[self._page_i]` and
`self.playlist[self.play_index]`. -/
def render_ok (s : MState) : Bool :=
  match s.layout, s.poem with
  | some L, some _ =>
    decide (s.page_i < L.pages.length) && decide (s.play_index < s.playlist.length)
  | _, _ => true

/-- `PoetryKioskApp._load_current` (`framework/kiosk.py` lines
410–433).  `playlist[play_index]` is evaluated outside the
`try`, so an out-of-range index crashes (`none`).  Inside the `try`,
a failed `load_poem` or a raising `paginate` is caught: the poem is
skipped via `_next_poem` and `_poem`/`_layout`/`_page_i` stay
untouched.  On success the new poem and layout are stored and
`_page_i` is reset to 0. -/
def load_current (measureT measureB : List Char → Int) (cfg : KioskConfig)
    (display_w display_h : Int) (e : Env) (s : MState) : Option MState :=
  match s.playlist.get? s.play_index with
  | none => none
  | some pid =>
    match e.load pid with
    | none => some (next_poem s)
    | some poem =>
      match paginate measureT measureB cfg poem.title poem.body display_w display_h with
      | none => some (next_poem s)
      | some L => some { s with poem := some poem, layout := some L, page_i := 0 }

/-- One iteration of the loop body of `PoetryKioskApp.run`
(`framework/kiosk.py` lines 372–408), for a non-empty playlist (the
empty playlist never enters this loop).  `none` models an uncaught
exception terminating the loop. -/
def step (measureT measureB : List Char → Int) (cfg : KioskConfig)
    (display_w display_h : Int) (e : Env) (s : MState) : Option MState :=
  match s.kstate with
  | KState.load =>
    match load_current measureT measureB cfg display_w display_h e s with
    | none => none
    | some s1 =>
      if render_ok s1 then
        some { s1 with kstate := KState.fadeIn, trans_dir := FadeDir.din,
                       trans_t0 := e.now }
      else none
  | KState.fadeIn =>
    if (fade_update (max 1 cfg.fade_ms) cfg.backlight_min cfg.backlight_max
        s.trans_dir s.trans_t0 e.now).2 then
      some { s with deadline_ms := e.now + cfg.dwell_ms, kstate := KState.display }
    else some s
  | KState.display =>
    let fired := e.touch_down && !s.touch_was_down
    let s1 := { s with touch_was_down := e.touch_down }
    let s2opt :=
      if fired then
        match s1.layout with
        | none => none
        | some L =>
          if L.pages.length = 0 then none
          else
            let s2 := { s1 with page_i := (s1.page_i + 1) % L.pages.length,
                                deadline_ms := e.now + cfg.dwell_ms }
            if render_ok s2 then some s2 else none
      else some s1
    match s2opt with
    | none => none
    | some s2 =>
      if s2.deadline_ms ≤ e.now then
        some { s2 with kstate := KState.fadeOut, trans_dir := FadeDir.dout,
                       trans_t0 := e.now }
      else some s2
  | KState.fadeOut =>
    if (fade_update (max 1 cfg.fade_ms) cfg.backlight_min cfg.backlight_max
        s.trans_dir s.trans_t0 e.now).2 then
      some { next_poem s with kstate := KState.load }
    else some s

/-- The run-state invariant of spec §3: the playlist index is in range
and, whenever a layout is present, the page index is within its pages. -/
def MInv (s : MState) : Bool :=
  decide (s.play_index < s.playlist.length) &&
    (match s.layout with
     | none => true
     | some L => decide (s.page_i < L.pages.length))

/-! ## Claim C2: the wrap bound. -/

theorem charWrapGo_bound (measure : List Char → Int) (maxPx : Int) :
    ∀ (cs : List Char) (outAcc : List (List Char)) (chunk : List Char),
      (∀ l ∈ outAcc, measure l ≤ maxPx ∨ l.length = 1) →
      (measure chunk ≤ maxPx ∨ chunk.length = 1) →
      (∀ l ∈ (charWrapGo measure maxPx outAcc chunk cs).1,
          measure l ≤ maxPx ∨ l.length = 1) ∧
        (measure (charWrapGo measure maxPx outAcc chunk cs).2 ≤ maxPx ∨
          (charWrapGo measure maxPx outAcc chunk cs).2.length = 1) := by
  intro cs
  induction cs with
  | nil => intro outAcc chunk hout hchunk; exact ⟨hout, hchunk⟩
  | cons c rest ih =>
    intro outAcc chunk hout hchunk
    simp only [charWrapGo]
    split_ifs with h1 h2 h2
    · exact ih _ _ hout (Or.inl h2)
    · exact ih _ _ hout (Or.inr rfl)
    · exact ih _ _ hout (Or.inl h2)
    · refine ih _ _ ?_ (Or.inr rfl)
      intro l hl
      rcases List.mem_append.mp hl with hl | hl
      · exact hout l hl
      · exact (List.mem_singleton.mp hl) ▸ hchunk

theorem procWord_bound (measure : List Char → Int) (maxPx : Int)
    (hm : measure [] ≤ maxPx) (st : WrapSt) (w : List Char)
    (hout : ∀ l ∈ st.out, measure l ≤ maxPx ∨ l.length = 1)
    (hcur : measure st.current ≤ maxPx ∨ st.current.length = 1) :
    (∀ l ∈ (procWord measure maxPx st w).out, measure l ≤ maxPx ∨ l.length = 1) ∧
      (measure (procWord measure maxPx st w).current ≤ maxPx ∨
        (procWord measure maxPx st w).current.length = 1) := by
  have hcw := charWrapGo_bound measure maxPx w [] []
    (by intro l hl; simp at hl) (Or.inl hm)
  have hout1 : ∀ l ∈ st.out ++ [st.current], measure l ≤ maxPx ∨ l.length = 1 := by
    intro l hl
    rcases List.mem_append.mp hl with hl | hl
    · exact hout l hl
    · exact (List.mem_singleton.mp hl) ▸ hcur
  have houtcw : ∀ (base : List (List Char)),
      (∀ l ∈ base, measure l ≤ maxPx ∨ l.length = 1) →
      ∀ l ∈ base ++ (charWrapGo measure maxPx [] [] w).1,
        measure l ≤ maxPx ∨ l.length = 1 := by
    intro base hbase l hl
    rcases List.mem_append.mp hl with hl | hl
    · exact hbase l hl
    · exact hcw.1 l hl
  by_cases h1 : st.current = []
  · simp only [procWord, h1, if_pos]
    split_ifs with h2
    · exact ⟨hout, Or.inl h2⟩
    · exact ⟨houtcw st.out hout, hcw.2⟩
  · simp only [procWord, h1, if_neg, not_false_eq_true]
    split_ifs with h2 h3
    · exact ⟨hout, Or.inl h2⟩
    · exact ⟨hout1, Or.inl h3⟩
    · exact ⟨houtcw (st.out ++ [st.current]) hout1, hcw.2⟩

theorem foldl_procWord_bound (measure : List Char → Int) (maxPx : Int)
    (hm : measure [] ≤ maxPx) :
    ∀ (ws : List (List Char)) (st : WrapSt),
      (∀ l ∈ st.out, measure l ≤ maxPx ∨ l.length = 1) →
      (measure st.current ≤ maxPx ∨ st.current.length = 1) →
      (∀ l ∈ (ws.foldl (procWord measure maxPx) st).out,
          measure l ≤ maxPx ∨ l.length = 1) ∧
        (measure (ws.foldl (procWord measure maxPx) st).current ≤ maxPx ∨
          (ws.foldl (procWord measure maxPx) st).current.length = 1) := by
  intro ws
  induction ws with
  | nil => intro st hout hcur; exact ⟨hout, hcur⟩
  | cons w ws ih =>
    intro st hout hcur
    have h := procWord_bound measure maxPx hm st w hout hcur
    exact ih _ h.1 h.2

theorem wrapLine_bound (measure : List Char → Int) (maxPx : Int)
    (hm : measure [] ≤ maxPx) (raw : List Char) :
    ∀ line ∈ wrapLine measure maxPx raw,
      measure line ≤ maxPx ∨ line.length = 1 := by
  intro line hline
  simp only [wrapLine] at hline
  split at hline
  · simp only [List.mem_singleton] at hline
    exact hline ▸ Or.inl hm
  · have h := foldl_procWord_bound measure maxPx hm (pySplit raw) ⟨[], []⟩
      (by intro l hl; simp at hl) (Or.inl hm)
    simp only [List.mem_append, List.mem_singleton] at hline
    rcases hline with hline | hline
    · exact h.1 line hline
    · exact hline ▸ h.2

/-- Claim C2: for every input text, usable width `W = width - 2*margin > 0`
and measurement function (with the empty string measuring within `W`,
as any pixel-width measure does), every line returned by `wrap_words`
has measured width at most `W`, except that a line may exceed `W` only
when it consists of a single character.  The wrapping loop always
terminates: `wrap_words` is a total function by construction. -/
theorem wrap_words_wrap_bound (measure : List Char → Int) (text : List Char)
    (width margin : Int) (hW : 0 < width - 2 * margin)
    (hm : measure [] ≤ width - 2 * margin) :
    ∀ line ∈ wrap_words measure text width margin,
      measure line ≤ width - 2 * margin ∨ line.length = 1 := by
  intro line hline
  simp only [wrap_words] at hline
  split at hline
  · simp only [List.mem_singleton] at hline
    exact hline ▸ Or.inl hm
  · rw [if_neg (by omega)] at hline
    simp only [List.mem_append] at hline
    rcases hline with hline | hline
    · rw [List.mem_flatten] at hline
      obtain ⟨seg, hseg, hmem⟩ := hline
      rw [List.mem_map] at hseg
      obtain ⟨raw, _, rfl⟩ := hseg
      exact wrapLine_bound measure _ hm raw line hmem
    · have := List.eq_of_mem_replicate hline
      exact this ▸ Or.inl hm

/-- Witness for C2 at a concrete input: the single produced line
`"HELLO WORLD"` measures 66 ≤ 80 pixels. -/
theorem wrap_words_wrap_bound_witness :
    mLen ['H','E','L','L','O',' ','W','O','R','L','D'] ≤ 100 - 2 * 10 ∨
      (['H','E','L','L','O',' ','W','O','R','L','D'] : List Char).length = 1 :=
  wrap_words_wrap_bound mLen ['H','E','L','L','O',' ','W','O','R','L','D'] 100 10
    (by decide) (by decide) ['H','E','L','L','O',' ','W','O','R','L','D'] (by decide)

/-! ## Claim C10: whitespace collapse inside explicit lines. -/

/-- A character list free of Python whitespace (the shape of every word
`str.split()` returns). -/
def noWs (l : List Char) : Prop := ∀ c ∈ l, pyIsSpace c = false

/-- A line is in collapsed normal form when re-splitting it into words
and re-joining them with single spaces reproduces it exactly: no
leading or trailing whitespace, no tabs, and every separator a single
space. -/
def collapsed (l : List Char) : Prop := joinWords (pySplit l) = l

theorem pySplitGo_words :
    ∀ (cs acc : List Char), noWs acc →
      ∀ w ∈ pySplitGo acc cs, w ≠ [] ∧ noWs w := by
  intro cs
  induction cs with
  | nil =>
    intro acc hacc w hw
    simp only [pySplitGo] at hw
    split at hw
    · simp at hw
    · next hne =>
      rw [List.mem_singleton] at hw
      subst hw
      exact ⟨by simpa using hne, fun c hc => hacc c (List.mem_reverse.mp hc)⟩
  | cons c cs ih =>
    intro acc hacc w hw
    simp only [pySplitGo] at hw
    by_cases hsp : pyIsSpace c = true
    · rw [if_pos hsp] at hw
      by_cases hacc0 : acc = []
      · rw [if_pos hacc0] at hw
        exact ih [] (by intro d hd; simp at hd) w hw
      · rw [if_neg hacc0] at hw
        rcases List.mem_cons.mp hw with hw | hw
        · subst hw
          exact ⟨by simpa using hacc0, fun d hd => hacc d (List.mem_reverse.mp hd)⟩
        · exact ih [] (by intro d hd; simp at hd) w hw
    · rw [if_neg hsp] at hw
      refine ih (c :: acc) ?_ w hw
      intro d hd
      rcases List.mem_cons.mp hd with hd | hd
      · subst hd; simpa using hsp
      · exact hacc d hd

theorem pySplitGo_noWs :
    ∀ (w : List Char), noWs w →
      ∀ acc : List Char,
        pySplitGo acc w =
          if acc.reverse ++ w = [] then [] else [acc.reverse ++ w] := by
  intro w
  induction w with
  | nil =>
    intro _ acc
    simp [pySplitGo]
  | cons c w ih =>
    intro hw acc
    have hc : pyIsSpace c = false := hw c (List.mem_cons_self c w)
    have hw' : noWs w := fun d hd => hw d (List.mem_cons_of_mem c hd)
    simp only [pySplitGo, hc, Bool.false_eq_true, if_false]
    rw [ih hw' (c :: acc)]
    simp [List.append_assoc]

/-- A non-empty whitespace-free word splits to itself. -/
theorem pySplit_word (w : List Char) (hne : w ≠ []) (hw : noWs w) :
    pySplit w = [w] := by
  unfold pySplit
  rw [pySplitGo_noWs w hw []]
  simp [hne]

theorem collapsed_nil : collapsed [] := by
  simp [collapsed, pySplit, pySplitGo, joinWords]

theorem collapsed_word (w : List Char) (hne : w ≠ []) (hw : noWs w) :
    collapsed w := by
  unfold collapsed
  rw [pySplit_word w hne hw]
  rfl

theorem pySplitGo_append_space :
    ∀ (cs₁ acc cs₂ : List Char),
      pySplitGo acc (cs₁ ++ ' ' :: cs₂) = pySplitGo acc cs₁ ++ pySplit cs₂ := by
  intro cs₁
  induction cs₁ with
  | nil =>
    intro acc cs₂
    have hsp : pyIsSpace ' ' = true := by decide
    simp only [List.nil_append, pySplitGo, hsp, if_true]
    by_cases h : acc = []
    · rw [if_pos h, if_pos h]
      simp [pySplit]
    · rw [if_neg h, if_neg h]
      simp [pySplit]
  | cons c cs₁ ih =>
    intro acc cs₂
    by_cases hsp : pyIsSpace c = true
    · simp only [List.cons_append, pySplitGo, hsp, if_true, List.append_eq]
      by_cases h : acc = []
      · rw [if_pos h, if_pos h, ih]
      · rw [if_neg h, if_neg h, ih]
        simp
    · simp only [List.cons_append, pySplitGo, hsp, if_false]
      exact ih (c :: acc) cs₂

theorem joinWords_append_single (w : List Char) :
    ∀ ws : List (List Char), ws ≠ [] →
      joinWords (ws ++ [w]) = joinWords ws ++ ' ' :: w := by
  intro ws
  induction ws with
  | nil => intro h; exact absurd rfl h
  | cons v ws ih =>
    intro _
    cases ws with
    | nil => simp [joinWords]
    | cons v2 ws2 =>
      have h2 := ih (List.cons_ne_nil v2 ws2)
      show v ++ ' ' :: joinWords ((v2 :: ws2) ++ [w]) =
        (v ++ ' ' :: joinWords (v2 :: ws2)) ++ ' ' :: w
      rw [h2]
      simp

theorem collapsed_append_word (cur w : List Char) (hcur : collapsed cur)
    (hc : cur ≠ []) (hw : w ≠ []) (hnw : noWs w) :
    collapsed (cur ++ ' ' :: w) := by
  unfold collapsed at *
  unfold pySplit at *
  rw [pySplitGo_append_space cur [] w]
  have hw1 : pySplitGo [] w = [w] := pySplit_word w hw hnw
  rw [show (pySplit w : List (List Char)) = pySplitGo [] w from rfl, hw1]
  have hne : pySplitGo [] cur ≠ [] := by
    intro h0
    rw [h0] at hcur
    exact hc (by simpa [joinWords] using hcur.symm)
  rw [joinWords_append_single w _ hne, hcur]

theorem charWrapGo_collapsed (measure : List Char → Int) (maxPx : Int) :
    ∀ (cs : List Char) (outAcc : List (List Char)) (chunk : List Char),
      noWs cs → noWs chunk → (∀ l ∈ outAcc, collapsed l) →
      (∀ l ∈ (charWrapGo measure maxPx outAcc chunk cs).1, collapsed l) ∧
        noWs (charWrapGo measure maxPx outAcc chunk cs).2 ∧
        ((charWrapGo measure maxPx outAcc chunk cs).2 = [] →
          chunk = [] ∧ cs = []) := by
  intro cs
  induction cs with
  | nil =>
    intro outAcc chunk _ hchunk hout
    exact ⟨hout, hchunk, fun h => ⟨h, rfl⟩⟩
  | cons c rest ih =>
    intro outAcc chunk hcs hchunk hout
    have hc : pyIsSpace c = false := hcs c (List.mem_cons_self c rest)
    have hrest : noWs rest := fun d hd => hcs d (List.mem_cons_of_mem c hd)
    have hflush : chunk ≠ [] → ∀ l ∈ outAcc ++ [chunk], collapsed l := by
      intro hne l hl
      rcases List.mem_append.mp hl with hl | hl
      · exact hout l hl
      · rw [List.mem_singleton] at hl
        subst hl
        exact collapsed_word _ hne hchunk
    simp only [charWrapGo]
    split_ifs with h1 h2 h2
    · -- chunk = [], candidate [c] accepted
      have h := ih outAcc [c] hrest
        (by intro d hd; rw [List.mem_singleton] at hd; subst hd; exact hc) hout
      exact ⟨h.1, h.2.1, fun he => absurd (h.2.2 he).1 (List.cons_ne_nil c [])⟩
    · -- chunk = [], flush is a no-op, new chunk [c]
      have h := ih outAcc [c] hrest
        (by intro d hd; rw [List.mem_singleton] at hd; subst hd; exact hc) hout
      exact ⟨h.1, h.2.1, fun he => absurd (h.2.2 he).1 (List.cons_ne_nil c [])⟩
    · -- chunk ≠ [], candidate chunk ++ [c] accepted
      have h := ih outAcc (chunk ++ [c]) hrest
        (by intro d hd
            rcases List.mem_append.mp hd with hd | hd
            · exact hchunk d hd
            · rw [List.mem_singleton] at hd; subst hd; exact hc) hout
      refine ⟨h.1, h.2.1, fun he => ?_⟩
      have := (h.2.2 he).1
      exact absurd this (by simp)
    · -- chunk ≠ [], flush chunk, new chunk [c]
      have h := ih (outAcc ++ [chunk]) [c] hrest
        (by intro d hd; rw [List.mem_singleton] at hd; subst hd; exact hc)
        (hflush h1)
      exact ⟨h.1, h.2.1, fun he => absurd (h.2.2 he).1 (List.cons_ne_nil c [])⟩

theorem procWord_collapsed (measure : List Char → Int) (maxPx : Int)
    (st : WrapSt) (w : List Char) (hwne : w ≠ []) (hwns : noWs w)
    (hout : ∀ l ∈ st.out, collapsed l) (hcur : collapsed st.current) :
    (∀ l ∈ (procWord measure maxPx st w).out, collapsed l) ∧
      collapsed (procWord measure maxPx st w).current := by
  have hcw := charWrapGo_collapsed measure maxPx w [] [] hwns
    (by intro d hd; simp at hd) (by intro l hl; simp at hl)
  have hcw2 : collapsed (charWrapGo measure maxPx [] [] w).2 := by
    by_cases he : (charWrapGo measure maxPx [] [] w).2 = []
    · exact absurd (hcw.2.2 he).2 hwne
    · exact collapsed_word _ he hcw.2.1
  have hout1 : ∀ l ∈ st.out ++ [st.current], collapsed l := by
    intro l hl
    rcases List.mem_append.mp hl with hl | hl
    · exact hout l hl
    · exact (List.mem_singleton.mp hl) ▸ hcur
  have houtcw : ∀ (base : List (List Char)), (∀ l ∈ base, collapsed l) →
      ∀ l ∈ base ++ (charWrapGo measure maxPx [] [] w).1, collapsed l := by
    intro base hbase l hl
    rcases List.mem_append.mp hl with hl | hl
    · exact hbase l hl
    · exact hcw.1 l hl
  by_cases h1 : st.current = []
  · simp only [procWord, h1, if_pos]
    split_ifs with h2
    · exact ⟨hout, collapsed_word w hwne hwns⟩
    · exact ⟨houtcw st.out hout, hcw2⟩
  · simp only [procWord, h1, if_neg, not_false_eq_true]
    split_ifs with h2 h3
    · exact ⟨hout, collapsed_append_word st.current w hcur h1 hwne hwns⟩
    · exact ⟨hout1, collapsed_word w hwne hwns⟩
    · exact ⟨houtcw (st.out ++ [st.current]) hout1, hcw2⟩

theorem foldl_procWord_collapsed (measure : List Char → Int) (maxPx : Int) :
    ∀ (ws : List (List Char)) (st : WrapSt),
      (∀ w ∈ ws, w ≠ [] ∧ noWs w) →
      (∀ l ∈ st.out, collapsed l) → collapsed st.current →
      (∀ l ∈ (ws.foldl (procWord measure maxPx) st).out, collapsed l) ∧
        collapsed (ws.foldl (procWord measure maxPx) st).current := by
  intro ws
  induction ws with
  | nil => intro st _ hout hcur; exact ⟨hout, hcur⟩
  | cons w ws ih =>
    intro st hws hout hcur
    have hw := hws w (List.mem_cons_self w ws)
    have h := procWord_collapsed measure maxPx st w hw.1 hw.2 hout hcur
    exact ih _ (fun v hv => hws v (List.mem_cons_of_mem w hv)) h.1 h.2

theorem wrapLine_collapsed (measure : List Char → Int) (maxPx : Int)
    (raw : List Char) :
    ∀ line ∈ wrapLine measure maxPx raw, collapsed line := by
  intro line hline
  simp only [wrapLine] at hline
  split at hline
  · rw [List.mem_singleton] at hline
    exact hline ▸ collapsed_nil
  · have h := foldl_procWord_collapsed measure maxPx (pySplit raw) ⟨[], []⟩
      (fun w hw => pySplitGo_words raw [] (by intro d hd; simp at hd) w hw)
      (by intro l hl; simp at hl) collapsed_nil
    rcases List.mem_append.mp hline with hline | hline
    · exact h.1 line hline
    · exact (List.mem_singleton.mp hline) ▸ h.2

theorem pySplit_joinWords :
    ∀ ws : List (List Char), (∀ w ∈ ws, w ≠ [] ∧ noWs w) →
      pySplit (joinWords ws) = ws := by
  intro ws
  induction ws with
  | nil => intro _; simp [joinWords, pySplit, pySplitGo]
  | cons w ws ih =>
    intro h
    have hw := h w (List.mem_cons_self w ws)
    cases ws with
    | nil => exact pySplit_word w hw.1 hw.2
    | cons w2 ws2 =>
      show pySplit (w ++ ' ' :: joinWords (w2 :: ws2)) = w :: w2 :: ws2
      unfold pySplit
      rw [pySplitGo_append_space w [] (joinWords (w2 :: ws2))]
      rw [show (pySplitGo [] w : List (List Char)) = pySplit w from rfl]
      rw [pySplit_word w hw.1 hw.2]
      rw [ih (fun v hv => h v (List.mem_cons_of_mem w hv))]
      rfl

/-- Claim C10: within each explicit line, whitespace only separates
words.  Part 1: every output line of `wrap_words` is in collapsed
normal form — re-splitting it on whitespace and re-joining with single
spaces reproduces it, so output lines carry no leading/trailing
whitespace, no tabs, and no multi-space runs (indentation and
alignment are never preserved).  Part 2: the per-line wrapper gives the
same result on a raw line and on its whitespace-collapsed form, i.e.
maximal whitespace runs act only as word separators. -/
theorem wrap_words_whitespace_collapsed (measure : List Char → Int)
    (width margin : Int) :
    (∀ text : List Char, ∀ line ∈ wrap_words measure text width margin,
        joinWords (pySplit line) = line) ∧
      (∀ raw : List Char,
        wrapLine measure (width - 2 * margin) (joinWords (pySplit raw)) =
          wrapLine measure (width - 2 * margin) raw) := by
  constructor
  · intro text line hline
    simp only [wrap_words] at hline
    split at hline
    · rw [List.mem_singleton] at hline
      exact hline ▸ collapsed_nil
    · split at hline
      · rw [List.mem_singleton] at hline
        exact hline ▸ collapsed_nil
      · rcases List.mem_append.mp hline with hline | hline
        · rw [List.mem_flatten] at hline
          obtain ⟨seg, hseg, hmem⟩ := hline
          rw [List.mem_map] at hseg
          obtain ⟨raw, _, rfl⟩ := hseg
          exact wrapLine_collapsed measure _ raw line hmem
        · exact (List.eq_of_mem_replicate hline) ▸ collapsed_nil
  · intro raw
    unfold wrapLine
    rw [pySplit_joinWords (pySplit raw)
      (fun w hw => pySplitGo_words raw [] (by intro d hd; simp at hd) w hw)]

/-- Witness for C10 at a concrete input: the line produced from
`"a  \t b"` is `"a b"`, which is its own collapsed normal form. -/
theorem wrap_words_whitespace_collapsed_witness :
    joinWords (pySplit ['a', ' ', 'b']) = ['a', ' ', 'b'] :=
  (wrap_words_whitespace_collapsed mLen 100 10).1
    ['a', ' ', ' ', '\t', ' ', 'b'] ['a', ' ', 'b'] (by decide)

/-! ## Claim C3: preservation of explicit newlines. -/

/-- Claim C3 fails on the code: a text of exactly two newline characters
produces four empty lines, not the `k + 1 = 3` that the claim (and the
source's own comments, which assume `splitlines()` drops all trailing
blank segments) promise.  `splitlines` keeps the blank segment between
the two newlines, and the trailing-newline loop then appends two more
blanks. -/
theorem wrap_words_trailing_newlines_duplicated :
    wrap_words mLen ['\n', '\n'] 100 10 = [[], [], [], []] ∧
      (wrap_words mLen ['\n', '\n'] 100 10).length ≠ 2 + 1 := by
  exact ⟨by decide, by decide⟩

/-! ## Claims C1 and C4: pagination totals. -/

theorem splitlinesGo_false_ne_nil :
    ∀ (cs acc : List Char), acc ≠ [] ∨ cs ≠ [] →
      splitlinesGo false acc cs ≠ [] := by
  intro cs
  induction cs with
  | nil =>
    intro acc h
    rcases h with h | h
    · simp [splitlinesGo, h]
    · exact absurd rfl h
  | cons c cs ih =>
    intro acc _
    simp only [splitlinesGo, Bool.false_and, Bool.false_eq_true, if_false]
    split_ifs with h1 h2
    · exact List.cons_ne_nil _ _
    · exact List.cons_ne_nil _ _
    · exact ih (c :: acc) (Or.inl (List.cons_ne_nil c acc))

theorem wrapLine_ne_nil (measure : List Char → Int) (maxPx : Int)
    (raw : List Char) : wrapLine measure maxPx raw ≠ [] := by
  unfold wrapLine
  by_cases h : pySplit raw = []
  · simp [h]
  · simp [h]

theorem wrap_words_ne_nil (measure : List Char → Int) (text : List Char)
    (width margin : Int) : wrap_words measure text width margin ≠ [] := by
  unfold wrap_words
  split_ifs with h1 h2
  · exact List.cons_ne_nil _ _
  · exact List.cons_ne_nil _ _
  · intro h
    rcases List.append_eq_nil.mp h with ⟨hf, _⟩
    rw [List.flatten_eq_nil_iff] at hf
    cases hsplit : splitlines text with
    | nil => exact splitlinesGo_false_ne_nil text [] (Or.inr h1) hsplit
    | cons seg rest =>
      refine wrapLine_ne_nil measure (width - 2 * margin) seg (hf _ ?_)
      rw [hsplit]
      exact List.mem_map_of_mem _ (List.mem_cons_self _ _)

/-- Shared shape lemma for `paginate`: whenever the body line height is
non-zero (so Python's floor division does not raise), `paginate`
returns a layout whose pages are non-empty, whose pages for an empty
body are exactly one page holding one empty line, and whose title lines
are the wrapped title. -/
theorem paginate_spec (measureT measureB : List Char → Int) (cfg : KioskConfig)
    (title body : List Char) (dw dh : Int)
    (hb : line_height_bitmap8 cfg.body_scale cfg.line_spacing_px ≠ 0) :
    ∃ L, paginate measureT measureB cfg title body dw dh = some L ∧
      1 ≤ L.pages.length ∧
      (body = [] → L.pages = [[[]]]) ∧
      L.title_lines =
        wrap_words measureT (sanitize_for_bitmap8 title) dw cfg.margin_px := by
  have hlpp : paginate_lines_per_page cfg
      (wrap_words measureT (sanitize_for_bitmap8 title) dw cfg.margin_px).length dh =
      some (max 1 (Int.fdiv
        (max 0 ((dh - cfg.margin_px * 2) -
          (((wrap_words measureT (sanitize_for_bitmap8 title) dw
              cfg.margin_px).length : Int) *
              line_height_bitmap8 cfg.title_scale cfg.line_spacing_px +
            cfg.title_gap_px)))
        (line_height_bitmap8 cfg.body_scale cfg.line_spacing_px))) := by
    simp only [paginate_lines_per_page]
    rw [if_neg hb]
  simp only [paginate, hlpp]
  refine ⟨_, rfl, ?_, ?_, rfl⟩
  · dsimp only
    split_ifs with h
    · simp
    · have := List.length_pos.mpr h
      omega
  · intro hbody
    subst hbody
    rfl

/-- Claim C1 fails as stated: for empty body text the single returned
page contains one empty line (`[[""]]`), not zero lines (`[[]]`),
because `wrap_words("")` returns `[""]` and the chunking loop then
produces one one-line page; the `if not pages` fallback to `[[]]` is
dead code. -/
theorem paginate_empty_body_counterexample :
    pagesOf (paginate mLen mLen cfgA ['A'] [] 240 240) = [[[]]] ∧
      pagesOf (paginate mLen mLen cfgA ['A'] [] 240 240) ≠ [[]] := by
  exact ⟨by decide, by decide⟩

/-- Claim C1 (amended): whenever `paginate` returns at all (the body
line height is non-zero; see C4), it returns at least one page, and for
empty body text it returns exactly one page containing a single empty
line — `[[""]]` rather than the claimed `[[]]` — while title lines are
still produced by wrapping the title. -/
theorem paginate_empty_body_single_page (measureT measureB : List Char → Int)
    (cfg : KioskConfig) (title body : List Char) (dw dh : Int)
    (hb : line_height_bitmap8 cfg.body_scale cfg.line_spacing_px ≠ 0) :
    ∃ L, paginate measureT measureB cfg title body dw dh = some L ∧
      1 ≤ L.pages.length ∧
      (body = [] → L.pages = [[[]]]) ∧
      L.title_lines =
        wrap_words measureT (sanitize_for_bitmap8 title) dw cfg.margin_px :=
  paginate_spec measureT measureB cfg title body dw dh hb

/-- Witness for the amended C1 at a concrete input. -/
theorem paginate_empty_body_single_page_witness :
    ∃ L, paginate mLen mLen cfgA ['A'] [] 240 240 = some L ∧
      1 ≤ L.pages.length ∧
      (([] : List Char) = [] → L.pages = [[[]]]) ∧
      L.title_lines = wrap_words mLen (sanitize_for_bitmap8 ['A']) 240 cfgA.margin_px :=
  paginate_empty_body_single_page mLen mLen cfgA ['A'] [] 240 240 (by decide)

/-- The all-zero configuration: it satisfies the documented invariant
(all fields non-negative, `backlight_min <= backlight_max`) yet makes
the body line height zero. -/
def cfgZero : KioskConfig :=
  { dwell_ms := 0, fade_ms := 0, margin_px := 0, line_spacing_px := 0,
    title_scale := 0, body_scale := 0, backlight_min := 0, backlight_max := 0,
    title_gap_px := 0 }

/-- Claim C4 fails as stated: with `body_scale = 0` and
`line_spacing = 0` — allowed by the documented invariant —
`body_line_h = 8*0 + 0 = 0` and the floor division
`body_h_per_page // body_line_h` raises `ZeroDivisionError`
(modelled as `none`). -/
theorem paginate_zero_config_counterexample :
    cfgZero.invariant ∧ paginate mLen mLen cfgZero ['A'] ['B'] 240 240 = none := by
  exact ⟨by decide, by decide⟩

/-- Claim C4 (amended): for every configuration satisfying the
documented invariant whose `body_scale` and `line_spacing_px` are not
both zero, the computed `lines_per_page` is at least 1 and `paginate`
returns normally; when both are zero the division raises. -/
theorem paginate_lines_per_page_pos (measureT measureB : List Char → Int)
    (cfg : KioskConfig) (title body : List Char) (dw dh : Int)
    (hinv : cfg.invariant)
    (hz : ¬(cfg.body_scale = 0 ∧ cfg.line_spacing_px = 0)) :
    (∃ v, paginate_lines_per_page cfg
        (wrap_words measureT (sanitize_for_bitmap8 title) dw cfg.margin_px).length
        dh = some v ∧ 1 ≤ v) ∧
      ∃ L, paginate measureT measureB cfg title body dw dh = some L := by
  have hb : line_height_bitmap8 cfg.body_scale cfg.line_spacing_px ≠ 0 := by
    unfold line_height_bitmap8
    unfold KioskConfig.invariant at hinv
    omega
  constructor
  · refine ⟨max 1 (Int.fdiv
        (max 0 ((dh - cfg.margin_px * 2) -
          (((wrap_words measureT (sanitize_for_bitmap8 title) dw
              cfg.margin_px).length : Int) *
              line_height_bitmap8 cfg.title_scale cfg.line_spacing_px +
            cfg.title_gap_px)))
        (line_height_bitmap8 cfg.body_scale cfg.line_spacing_px)),
      ?_, le_max_left _ _⟩
    simp only [paginate_lines_per_page]
    rw [if_neg hb]
  · obtain ⟨L, hL, _⟩ := paginate_spec measureT measureB cfg title body dw dh hb
    exact ⟨L, hL⟩

/-- Witness for the amended C4 at a concrete input. -/
theorem paginate_lines_per_page_pos_witness :
    (∃ v, paginate_lines_per_page cfgA
        (wrap_words mLen (sanitize_for_bitmap8 ['A']) 240 cfgA.margin_px).length
        240 = some v ∧ 1 ≤ v) ∧
      ∃ L, paginate mLen mLen cfgA ['A'] ['B'] 240 240 = some L :=
  paginate_lines_per_page_pos mLen mLen cfgA ['A'] ['B'] 240 240
    (by decide) (by decide)

/-! ## Claim C5: playlist membership, photo-independence and order. -/

theorem lexLe_total : ∀ a b : List Char, lexLe a b = true ∨ lexLe b a = true := by
  intro a
  induction a with
  | nil => intro b; left; rfl
  | cons x s ih =>
    intro b
    cases b with
    | nil => right; rfl
    | cons y t =>
      rcases lt_trichotomy x y with h | h | h
      · left
        simp only [lexLe]
        rw [if_pos h]
      · subst h
        rcases ih t with h2 | h2
        · left
          simp only [lexLe]
          rw [if_neg (lt_irrefl x), if_neg (lt_irrefl x)]
          exact h2
        · right
          simp only [lexLe]
          rw [if_neg (lt_irrefl x), if_neg (lt_irrefl x)]
          exact h2
      · right
        simp only [lexLe]
        rw [if_pos h]

theorem lexLe_trans :
    ∀ a b c : List Char, lexLe a b = true → lexLe b c = true → lexLe a c = true := by
  intro a
  induction a with
  | nil => intro b c _ _; rfl
  | cons x s ih =>
    intro b c hab hbc
    cases b with
    | nil =>
      simp only [lexLe] at hab
      exact absurd hab Bool.false_ne_true
    | cons y t =>
      cases c with
      | nil =>
        simp only [lexLe] at hbc
        exact absurd hbc Bool.false_ne_true
      | cons z u =>
        rcases lt_trichotomy x y with hxy | hxy | hxy
        · rcases lt_trichotomy y z with hyz | hyz | hyz
          · simp only [lexLe]
            rw [if_pos (lt_trans hxy hyz)]
          · subst hyz
            simp only [lexLe]
            rw [if_pos hxy]
          · exfalso
            simp only [lexLe] at hbc
            rw [if_neg (lt_asymm hyz), if_pos hyz] at hbc
            exact Bool.false_ne_true hbc
        · subst hxy
          rcases lt_trichotomy x z with hxz | hxz | hxz
          · simp only [lexLe]
            rw [if_pos hxz]
          · subst hxz
            simp only [lexLe] at hab hbc ⊢
            rw [if_neg (lt_irrefl x), if_neg (lt_irrefl x)] at hab hbc ⊢
            exact ih t u hab hbc
          · exfalso
            simp only [lexLe] at hbc
            rw [if_neg (lt_asymm hxz), if_pos hxz] at hbc
            exact Bool.false_ne_true hbc
        · exfalso
          simp only [lexLe] at hab
          rw [if_neg (lt_asymm hxy), if_pos hxy] at hab
          exact Bool.false_ne_true hab

instance : IsTotal (List Char) (fun a b => lexLe a b = true) := ⟨lexLe_total⟩

instance : IsTrans (List Char) (fun a b => lexLe a b = true) := ⟨lexLe_trans⟩

theorem mem_build_playlist (entries : List (List Char))
    (photoExists : List Char → Bool) (pid : List Char) :
    pid ∈ build_playlist entries photoExists ↔
      (pid ++ ['.', 'j', 's', 'o', 'n']) ∈ entries ∧ pid ≠ [] := by
  unfold build_playlist
  rw [(List.perm_insertionSort _ _).mem_iff, List.mem_map]
  constructor
  · rintro ⟨e, he, rfl⟩
    rw [List.mem_filter] at he
    obtain ⟨hmem, hj⟩ := he
    unfold _is_json at hj
    rw [Bool.and_eq_true, decide_eq_true_eq, decide_eq_true_eq] at hj
    obtain ⟨hsuffix, hlen⟩ := hj
    constructor
    · have hsplit : _basename_no_ext e ++ ['.', 'j', 's', 'o', 'n'] = e := by
        unfold _basename_no_ext
        conv_rhs => rw [← List.take_append_drop (e.length - 5) e]
        rw [hsuffix]
      rw [hsplit]
      exact hmem
    · unfold _basename_no_ext
      intro h0
      have hl := congrArg List.length h0
      rw [List.length_take] at hl
      have hmin : min (e.length - 5) e.length = e.length - 5 :=
        Nat.min_eq_left (Nat.sub_le _ _)
      rw [hmin] at hl
      simp at hl
      omega
  · rintro ⟨hmem, hne⟩
    refine ⟨pid ++ ['.', 'j', 's', 'o', 'n'], ?_, ?_⟩
    · rw [List.mem_filter]
      refine ⟨hmem, ?_⟩
      unfold _is_json
      rw [Bool.and_eq_true, decide_eq_true_eq, decide_eq_true_eq]
      have hlen : (pid ++ ['.', 'j', 's', 'o', 'n']).length = pid.length + 5 := by
        simp
      constructor
      · rw [hlen, Nat.add_sub_cancel, List.drop_left]
      · rw [hlen]
        have := List.length_pos.mpr hne
        omega
    · unfold _basename_no_ext
      rw [List.length_append]
      show (pid ++ ['.', 'j', 's', 'o', 'n']).take (pid.length + 5 - 5) = pid
      rw [Nat.add_sub_cancel, List.take_left]

/-- Claim C5: `build_playlist` includes exactly the ids that have an
`<id>.json` entry in the poems directory listing (with a non-empty
basename, as `len(name) > 5` requires), its result does not depend on
which photo files exist — the missing-photo probe only logs — and the
returned list is sorted lexicographically. -/
theorem build_playlist_complete_sorted (entries : List (List Char))
    (pe pe' : List Char → Bool) :
    (∀ pid, pid ∈ build_playlist entries pe ↔
        (pid ++ ['.', 'j', 's', 'o', 'n']) ∈ entries ∧ pid ≠ []) ∧
      build_playlist entries pe = build_playlist entries pe' ∧
      List.Sorted (fun a b => lexLe a b = true) (build_playlist entries pe) :=
  ⟨mem_build_playlist entries pe, rfl, List.sorted_insertionSort _ _⟩

/-! ## Claim C6: touch rising-edge detection. -/

theorem touch_fires_go_zipWith :
    ∀ (ds : List Bool) (was : Bool),
      touch_fires_go was ds =
        List.zipWith (fun cur prev => cur && !prev) ds (was :: ds) := by
  intro ds
  induction ds with
  | nil => intro was; rfl
  | cons d ds ih =>
    intro was
    show (d && !was) :: touch_fires_go d ds =
      (d && !was) :: List.zipWith (fun cur prev => cur && !prev) ds (d :: ds)
    rw [ih d]

/-- Claim C6: `_touch_event` fires exactly on rising edges — the fire
list equals, position by position, "down now and not down at the
previous poll" (with the initial previous state `False` from
`__init__`) — and the poll sequence down, down, up, down produces fires
at exactly the first and fourth polls, two in total. -/
theorem touch_event_rising_edge :
    (∀ ds : List Bool,
        touch_fires ds =
          List.zipWith (fun cur prev => cur && !prev) ds (false :: ds)) ∧
      touch_fires [true, true, false, true] = [true, false, false, true] ∧
      (touch_fires [true, true, false, true]).count true = 2 :=
  ⟨fun ds => touch_fires_go_zipWith ds false, by decide, by decide⟩

/-! ## Claim C7: fade transition endpoints. -/

theorem pyInt_intCast (n : Int) : pyInt (n : ℚ) = n := by
  unfold pyInt
  split_ifs with h
  · exact Int.ceil_intCast n
  · exact Int.floor_intCast n

theorem clamp01_of_neg (now t0 duration_ms : Int) (hd : 1 ≤ duration_ms)
    (hnow : now < t0) : clamp01 (Rat.divInt (now - t0) duration_ms) = 0 := by
  rw [Rat.divInt_eq_div]
  unfold clamp01
  rw [if_pos]
  apply div_neg_of_neg_of_pos
  · have : ((now - t0 : Int) : ℚ) < 0 := by exact_mod_cast Int.sub_neg_of_lt hnow
    exact this
  · exact_mod_cast hd

theorem clamp01_of_ge (now t0 duration_ms : Int) (hd : 1 ≤ duration_ms)
    (hnow : t0 + duration_ms ≤ now) :
    clamp01 (Rat.divInt (now - t0) duration_ms) = 1 := by
  rw [Rat.divInt_eq_div]
  have hdpos : (0 : ℚ) < (duration_ms : ℚ) := by exact_mod_cast hd
  have hq : (1 : ℚ) ≤ ((now - t0 : Int) : ℚ) / (duration_ms : ℚ) := by
    rw [one_le_div hdpos]
    exact_mod_cast Int.le_sub_left_of_add_le (by omega)
  unfold clamp01
  split_ifs with ha hb
  · linarith
  · rfl
  · linarith

/-- Claim C7: before the start time, `update` returns `false` and sets
the backlight exactly to the direction's start bound (`min` for "in",
`max` for "out"); at `start + duration` and at every later time it
returns `true` with the backlight exactly at the end bound — repeated
calls after completion keep returning `true` with the brightness held
there.  The bounds hypotheses are the documented `KioskConfig`
invariant (`0 ≤ backlight_min ≤ backlight_max ≤ 100`); the constructor
enforces `duration_ms ≥ 1`. -/
theorem fade_update_endpoints (duration_ms min_b max_b t0 : Int) (dir : FadeDir)
    (hd : 1 ≤ duration_ms) (h0 : 0 ≤ min_b) (h1 : min_b ≤ max_b)
    (h2 : max_b ≤ 100) :
    (∀ now, now < t0 →
        fade_update duration_ms min_b max_b dir t0 now =
          ((match dir with | FadeDir.din => min_b | FadeDir.dout => max_b), false)) ∧
      (∀ now, t0 + duration_ms ≤ now →
        fade_update duration_ms min_b max_b dir t0 now =
          ((match dir with | FadeDir.din => max_b | FadeDir.dout => min_b), true)) := by
  have hsm0 : smoothstep 0 = 0 := by norm_num [smoothstep]
  have hsm1 : smoothstep 1 = 1 := by norm_num [smoothstep]
  have hlerp0 : ∀ a b : Int, lerp (a : ℚ) (b : ℚ) 0 = ((a : Int) : ℚ) := by
    intro a b; simp [lerp]
  have hlerp1 : ∀ a b : Int, lerp (a : ℚ) (b : ℚ) 1 = ((b : Int) : ℚ) := by
    intro a b; unfold lerp; ring
  have hbl_min : set_backlight_0_100 min_b = min_b := by
    unfold set_backlight_0_100; omega
  have hbl_max : set_backlight_0_100 max_b = max_b := by
    unfold set_backlight_0_100; omega
  constructor
  · intro now hnow
    have ht := clamp01_of_neg now t0 duration_ms hd hnow
    cases dir <;>
      simp only [fade_update, ht, hsm0, hlerp0, pyInt_intCast, hbl_min, hbl_max] <;>
      norm_num
  · intro now hnow
    have ht := clamp01_of_ge now t0 duration_ms hd hnow
    cases dir <;>
      simp only [fade_update, ht, hsm1, hlerp1, pyInt_intCast, hbl_min, hbl_max] <;>
      norm_num

/-- Witness for C7 at a concrete input: duration 10ms, bounds 5..95,
start 100, direction "in": at time 99 the update reports unfinished at
brightness 5; at times 110 and 250 it reports finished at brightness
95. -/
theorem fade_update_endpoints_witness :
    fade_update 10 5 95 FadeDir.din 100 99 = (5, false) ∧
      fade_update 10 5 95 FadeDir.din 100 110 = (95, true) ∧
      fade_update 10 5 95 FadeDir.din 100 250 = (95, true) := by
  have h := fade_update_endpoints 10 5 95 100 FadeDir.din
    (by decide) (by decide) (by decide) (by decide)
  exact ⟨h.1 99 (by decide), h.2 110 (by decide), h.2 250 (by decide)⟩

/-! ## Claims C8 and C9: the state-machine loop. -/

theorem paginate_pages_ne_nil (measureT measureB : List Char → Int)
    (cfg : KioskConfig) (title body : List Char) (dw dh : Int) (L : Layout)
    (h : paginate measureT measureB cfg title body dw dh = some L) :
    L.pages ≠ [] := by
  by_cases hb : line_height_bitmap8 cfg.body_scale cfg.line_spacing_px = 0
  · have hnone : paginate measureT measureB cfg title body dw dh = none := by
      simp only [paginate, paginate_lines_per_page]
      rw [if_pos hb]
    rw [hnone] at h
    cases h
  · obtain ⟨L', hL', hlen, _, _⟩ := paginate_spec measureT measureB cfg title body dw dh hb
    rw [hL'] at h
    obtain rfl := Option.some.inj h
    intro h0
    rw [h0] at hlen
    simp at hlen

theorem MInv_eq_true_iff (s : MState) :
    MInv s = true ↔ s.play_index < s.playlist.length ∧
      ∀ L, s.layout = some L → s.page_i < L.pages.length := by
  unfold MInv
  rw [Bool.and_eq_true, decide_eq_true_eq]
  constructor
  · rintro ⟨h1, h2⟩
    refine ⟨h1, fun L hL => ?_⟩
    rw [hL] at h2
    simpa using h2
  · rintro ⟨h1, h2⟩
    refine ⟨h1, ?_⟩
    cases hL : s.layout with
    | none => rfl
    | some L => simpa using h2 L hL

theorem load_current_fields (measureT measureB : List Char → Int)
    (cfg : KioskConfig) (dw dh : Int) (e : Env) (s s1 : MState)
    (hlc : load_current measureT measureB cfg dw dh e s = some s1) :
    s1.playlist = s.playlist ∧
      (s1.play_index = s.play_index ∨
        s1.play_index =
          (if s.playlist.length ≤ s.play_index + 1 then 0 else s.play_index + 1)) ∧
      ((s1.layout = s.layout ∧ s1.page_i = s.page_i) ∨
        (s1.page_i = 0 ∧ ∃ L, s1.layout = some L ∧ L.pages ≠ [])) := by
  unfold load_current at hlc
  cases hg : s.playlist.get? s.play_index with
  | none =>
    rw [hg] at hlc
    exact Option.noConfusion hlc
  | some pid =>
    rw [hg] at hlc
    simp only [] at hlc
    cases hl : e.load pid with
    | none =>
      rw [hl] at hlc
      simp only [] at hlc
      obtain rfl := Option.some.inj hlc
      exact ⟨rfl, Or.inr rfl, Or.inl ⟨rfl, rfl⟩⟩
    | some poem =>
      rw [hl] at hlc
      simp only [] at hlc
      cases hp : paginate measureT measureB cfg poem.title poem.body dw dh with
      | none =>
        rw [hp] at hlc
        simp only [] at hlc
        obtain rfl := Option.some.inj hlc
        exact ⟨rfl, Or.inr rfl, Or.inl ⟨rfl, rfl⟩⟩
      | some L =>
        rw [hp] at hlc
        simp only [] at hlc
        obtain rfl := Option.some.inj hlc
        refine ⟨rfl, Or.inl rfl, Or.inr ⟨rfl, L, rfl, ?_⟩⟩
        exact paginate_pages_ne_nil measureT measureB cfg poem.title poem.body dw dh L hp

/-- Claim C8: for every non-empty playlist, one iteration of the run
loop preserves the run-state invariant — `play_index` stays within the
playlist and, whenever a layout is present, `page_i` stays within its
pages.  `_next_poem` wraps to 0, `_page_advance_wrap` advances modulo
the page count, and a successful `_load_current` resets the page index
to 0 with a freshly paginated (hence non-empty) page list. -/
theorem step_preserves_invariant (measureT measureB : List Char → Int)
    (cfg : KioskConfig) (dw dh : Int) (e : Env) (s s' : MState)
    (hne : s.playlist ≠ []) (hinv : MInv s = true)
    (hstep : step measureT measureB cfg dw dh e s = some s') :
    MInv s' = true := by
  rw [MInv_eq_true_iff] at hinv
  obtain ⟨hplay, hpage⟩ := hinv
  rw [MInv_eq_true_iff]
  have hlen0 : 0 < s.playlist.length := Nat.lt_of_le_of_lt (Nat.zero_le _) hplay
  cases hks : s.kstate with
  | load =>
    unfold step at hstep
    rw [hks] at hstep
    simp only [] at hstep
    cases hlc : load_current measureT measureB cfg dw dh e s with
    | none =>
      rw [hlc] at hstep
      exact Option.noConfusion hstep
    | some s1 =>
      rw [hlc] at hstep
      simp only [] at hstep
      split_ifs at hstep with hr
      · obtain rfl := Option.some.inj hstep
        obtain ⟨hpl, hpi, hlay⟩ :=
          load_current_fields measureT measureB cfg dw dh e s s1 hlc
        dsimp only
        constructor
        · rw [hpl]
          rcases hpi with h | h <;> rw [h]
          · exact hplay
          · split_ifs with hw
            · exact hlen0
            · omega
        · intro L hL
          rcases hlay with ⟨hl1, hl2⟩ | ⟨hp0, L', hL', hne'⟩
          · rw [hl2]
            exact hpage L (by rw [← hl1]; exact hL)
          · rw [hL'] at hL
            obtain rfl := Option.some.inj hL
            rw [hp0]
            exact List.length_pos.mpr hne'
  | fadeIn =>
    unfold step at hstep
    rw [hks] at hstep
    simp only [] at hstep
    split_ifs at hstep with hf
    · obtain rfl := Option.some.inj hstep
      exact ⟨hplay, hpage⟩
    · obtain rfl := Option.some.inj hstep
      exact ⟨hplay, hpage⟩
  | display =>
    unfold step at hstep
    rw [hks] at hstep
    simp only [] at hstep
    by_cases hfired : (e.touch_down && !s.touch_was_down) = true
    · rw [if_pos hfired] at hstep
      cases hlay : s.layout with
      | none =>
        rw [hlay] at hstep
        simp only [] at hstep
        exact Option.noConfusion hstep
      | some L =>
        rw [hlay] at hstep
        simp only [] at hstep
        by_cases hz : L.pages.length = 0
        · rw [if_pos hz] at hstep
          simp only [] at hstep
          exact Option.noConfusion hstep
        · rw [if_neg hz] at hstep
          split_ifs at hstep with hr
          · simp only [] at hstep
            split_ifs at hstep with hd
            · obtain rfl := Option.some.inj hstep
              refine ⟨hplay, fun L' hL' => ?_⟩
              obtain rfl := Option.some.inj hL'
              exact Nat.mod_lt _ (Nat.pos_of_ne_zero hz)
            · obtain rfl := Option.some.inj hstep
              refine ⟨hplay, fun L' hL' => ?_⟩
              obtain rfl := Option.some.inj hL'
              exact Nat.mod_lt _ (Nat.pos_of_ne_zero hz)
    · rw [if_neg hfired] at hstep
      simp only [] at hstep
      split_ifs at hstep with hd
      · obtain rfl := Option.some.inj hstep
        exact ⟨hplay, hpage⟩
      · obtain rfl := Option.some.inj hstep
        exact ⟨hplay, hpage⟩
  | fadeOut =>
    unfold step at hstep
    rw [hks] at hstep
    simp only [] at hstep
    split_ifs at hstep with hf
    · obtain rfl := Option.some.inj hstep
      refine ⟨?_, hpage⟩
      dsimp only [next_poem]
      split_ifs with hw
      · exact hlen0
      · omega
    · obtain rfl := Option.some.inj hstep
      exact ⟨hplay, hpage⟩

/-- A concrete machine state in DISPLAY with one poem and one page. -/
def sDemo : MState :=
  { playlist := [['a']], play_index := 0, kstate := KState.display,
    deadline_ms := 100, poem := some { title := ['t'], body := ['b'] },
    layout := some { title_lines := [['t']], pages := [[['b']]] }, page_i := 0,
    touch_was_down := false, trans_dir := FadeDir.din, trans_t0 := 0 }

/-- The state one DISPLAY iteration of `step` produces from `sDemo`
under a touch at time 0. -/
def sDemo' : MState :=
  { sDemo with deadline_ms := 8000, touch_was_down := true }

/-- Witness for C8 at a concrete input: the invariant survives a
touch-driven page advance in DISPLAY. -/
theorem step_preserves_invariant_witness : MInv sDemo' = true :=
  step_preserves_invariant mLen mLen cfgA 240 240
    { now := 0, touch_down := true, load := fun _ => none } sDemo sDemo'
    (by decide) (by decide) (by decide)

/-- Claim C9: when loading or validating the current poem fails,
`_load_current` leaves `_poem`, `_layout` and `_page_i` untouched and
advances only `play_index` (wrapping at the end of the playlist) — but
the loop then moves to FADE_IN, because `run` sets
`self._state = "FADE_IN"` unconditionally right after `_load_current`
returns; the machine does not stay in LOAD as the source's own
"stay in LOAD; next loop will try again" comment intends. -/
theorem load_failure_skips_forward (measureT measureB : List Char → Int)
    (cfg : KioskConfig) (dw dh : Int) (e : Env) (s s' : MState) (pid : List Char)
    (hks : s.kstate = KState.load)
    (hpid : s.playlist.get? s.play_index = some pid)
    (hload : e.load pid = none)
    (hstep : step measureT measureB cfg dw dh e s = some s') :
    s'.poem = s.poem ∧ s'.layout = s.layout ∧ s'.page_i = s.page_i ∧
      s'.playlist = s.playlist ∧
      s'.play_index =
        (if s.playlist.length ≤ s.play_index + 1 then 0 else s.play_index + 1) ∧
      s'.kstate = KState.fadeIn := by
  unfold step at hstep
  rw [hks] at hstep
  simp only [] at hstep
  have hlc : load_current measureT measureB cfg dw dh e s = some (next_poem s) := by
    unfold load_current
    rw [hpid]
    simp only []
    rw [hload]
  rw [hlc] at hstep
  simp only [] at hstep
  split_ifs at hstep with hr
  obtain rfl := Option.some.inj hstep
  exact ⟨rfl, rfl, rfl, rfl, rfl, rfl⟩

/-- A concrete machine state in LOAD whose repository rejects every
poem. -/
def sLoad : MState :=
  { playlist := [['a']], play_index := 0, kstate := KState.load,
    deadline_ms := 0, poem := none, layout := none, page_i := 0,
    touch_was_down := false, trans_dir := FadeDir.din, trans_t0 := 0 }

/-- The state `step` produces from `sLoad` when the load fails at time
5: the playlist index wrapped back to 0 and the machine moved to
FADE_IN with no layout. -/
def sLoad' : MState :=
  { sLoad with kstate := KState.fadeIn, trans_dir := FadeDir.din, trans_t0 := 5 }

/-- Witness for C9 at a concrete input. -/
theorem load_failure_skips_forward_witness :
    sLoad'.poem = sLoad.poem ∧ sLoad'.layout = sLoad.layout ∧
      sLoad'.page_i = sLoad.page_i ∧ sLoad'.playlist = sLoad.playlist ∧
      sLoad'.play_index =
        (if sLoad.playlist.length ≤ sLoad.play_index + 1 then 0
          else sLoad.play_index + 1) ∧
      sLoad'.kstate = KState.fadeIn :=
  load_failure_skips_forward mLen mLen cfgA 240 240
    { now := 5, touch_down := false, load := fun _ => none } sLoad sLoad' ['a']
    (by decide) (by decide) rfl (by decide)

end PoetryKiosk
